import Mathlib

/-!
Verification of the Skill-Gap Resolution and Course-Ranking Engine
(`esco_kg_streamlit.py`).

Strings are modelled as `List Char` (Python `str` is a sequence of code
points); Python floats are modelled as exact rationals `ℚ`; a fallible
content-source request is `Except` / `Option`.

The Similarity Scorer `calculate_skill_match` calls
`difflib.SequenceMatcher(None, a.lower(), b.lower()).ratio()`.  The
embedding below reproduces that library algorithm (Ratcliff–Obershelp):
`ratio = 2*M/T` where `T = len(a)+len(b)` and `M` is the total size of the
matching blocks found by recursively taking the longest matching block.
With `isjunk=None` the junk set is empty, so the junk-extension loops of
`find_longest_match` are no-ops and are omitted; the `autojunk` filtering
of popular elements (elements of `b` whose count exceeds `len(b)//100 + 1`
when `len(b) >= 200`) is modelled by `popularB`.  `find_longest_match`
returns, among the maximal matching blocks all of whose `b`-positions are
non-popular, the one that starts earliest in `a` and then earliest in `b`
(the dynamic programme scans ending rows `i` ascending and, within a row,
`j` ascending, replacing the best block only on a strictly larger size);
the block is then extended greedily to the left and to the right over
equal (possibly popular) elements, exactly as in the library source.
-/

/-- Python `str.lower()` on a string modelled as a list of characters. -/
def lowerLC (s : List Char) : List Char := s.map Char.toLower

/-- Indexing into a string; all real accesses are guarded in range, the
default is irrelevant. -/
def chGet (l : List Char) (i : Nat) : Char := l.getD i 'a'

/-- `autojunk` popularity: an element of `b` is popular (and dropped from
`b2j`) when `len(b) >= 200` and its count exceeds `len(b) // 100 + 1`. -/
def popularB (b : List Char) (c : Char) : Bool :=
  decide (200 ≤ b.length) && decide (b.length / 100 + 1 < b.count c)

/-- `a[i] == b[j]` and `b[j]` is present in `b2j` (not popular): the
condition for position pair `(i, j)` to take part in a matching run. -/
def matchAt (a b : List Char) (i j : Nat) : Bool :=
  decide (chGet a i = chGet b j) && !popularB b (chGet b j)

/-- Length of the matching run ending at `(i, j)` that stays inside
`[alo, ·]` × `[blo, ·]`: the value `j2len[j]` computed at row `i` of the
`find_longest_match` dynamic programme. -/
def runlen (a b : List Char) (alo blo : Nat) : Nat → Nat → Nat
  | 0, j => if matchAt a b 0 j then 1 else 0
  | i+1, 0 => if matchAt a b (i+1) 0 then 1 else 0
  | i+1, j+1 =>
    if matchAt a b (i+1) (j+1) then
      (if alo < i+1 ∧ blo < j+1 then runlen a b alo blo i j else 0) + 1
    else 0

/-- Strict lexicographic order on position pairs: the iteration order of
the dynamic programme (rows `i` ascending, then `j` ascending). -/
def lexLT (p q : Nat × Nat) : Prop :=
  p.1 < q.1 ∨ (p.1 = q.1 ∧ p.2 < q.2)

/-- All position pairs `(i, j)` with `alo ≤ i < ahi`, `blo ≤ j < bhi`, in
the iteration order of the dynamic programme. -/
def pairsIdx (alo ahi blo bhi : Nat) : List (Nat × Nat) :=
  (List.range' alo (ahi - alo)).flatMap
    (fun i => (List.range' blo (bhi - blo)).map (fun j => (i, j)))

/-- The running best block of `find_longest_match` (`besti`, `bestj`,
`bestsize`), with `besti`/`bestj` the start positions. -/
structure MatchBlock where
  besti : Nat
  bestj : Nat
  bestsize : Nat
deriving DecidableEq

/-- One step of the scan: replace the best block exactly when the run
ending at the current pair is strictly longer (`if k > bestsize`). -/
def flmStep (a b : List Char) (alo blo : Nat) (acc : MatchBlock) (p : Nat × Nat) :
    MatchBlock :=
  let k := runlen a b alo blo p.1 p.2
  if acc.bestsize < k then ⟨p.1 + 1 - k, p.2 + 1 - k, k⟩ else acc

/-- Number of left-extension steps: `while besti > alo and bestj > blo and
a[besti-1] == b[bestj-1]` (the junk test is vacuous with `isjunk=None`). -/
def extLeftCount (a b : List Char) (alo blo : Nat) : Nat → Nat → Nat
  | i+1, j+1 =>
    if alo < i+1 ∧ blo < j+1 ∧ chGet a i = chGet b j then
      extLeftCount a b alo blo i j + 1
    else 0
  | _, _ => 0

/-- Right extension: `while besti+bestsize < ahi and bestj+bestsize < bhi
and a[besti+bestsize] == b[bestj+bestsize]: bestsize += 1`, returning the
final size.  The fuel bounds the iteration count; every iteration needs
`i + k < ahi`, so `ahi - k₀` steps always suffice. -/
def extRightSize (a b : List Char) (ahi bhi i j : Nat) : Nat → Nat → Nat
  | 0, k => k
  | f+1, k =>
    if i + k < ahi ∧ j + k < bhi ∧ chGet a (i + k) = chGet b (j + k) then
      extRightSize a b ahi bhi i j f (k+1)
    else k

/-- `SequenceMatcher.find_longest_match(alo, ahi, blo, bhi)`. -/
def findLongestMatch (a b : List Char) (alo ahi blo bhi : Nat) : MatchBlock :=
  let r := (pairsIdx alo ahi blo bhi).foldl (flmStep a b alo blo) ⟨alo, blo, 0⟩
  let e := extLeftCount a b alo blo r.besti r.bestj
  let i2 := r.besti - e
  let j2 := r.bestj - e
  let k2 := r.bestsize + e
  ⟨i2, j2, extRightSize a b ahi bhi i2 j2 (ahi - k2) k2⟩

/-- Total size of the matching blocks of `get_matching_blocks` restricted
to the given ranges (the queue recursion of the library, with its guards).
The fuel bounds the recursion depth: every recursive call strictly
shrinks `ahi - alo`, so `ahi - alo + 1` always suffices at the top. -/
def mtotF (a b : List Char) : Nat → Nat → Nat → Nat → Nat → Nat
  | 0, _, _, _, _ => 0
  | f+1, alo, ahi, blo, bhi =>
    let r := findLongestMatch a b alo ahi blo bhi
    if r.bestsize = 0 then 0
    else
      r.bestsize
        + (if alo < r.besti ∧ blo < r.bestj then
             mtotF a b f alo r.besti blo r.bestj
           else 0)
        + (if r.besti + r.bestsize < ahi ∧ r.bestj + r.bestsize < bhi then
             mtotF a b f (r.besti + r.bestsize) ahi (r.bestj + r.bestsize) bhi
           else 0)

/-- `M`: the number of matched characters between `a` and `b`. -/
def mtot (a b : List Char) : Nat :=
  mtotF a b (a.length + 1) 0 a.length 0 b.length

/-- `SequenceMatcher.ratio() = 2*M/T` (and `1.0` when both strings are
empty, as in `_calculate_ratio`). -/
def ratioLC (a b : List Char) : ℚ :=
  if a.length + b.length = 0 then 1
  else (2 * (mtot a b : ℚ)) / ((a.length : ℚ) + (b.length : ℚ))

/-- `calculate_skill_match(skill1, skill2)`:
`SequenceMatcher(None, skill1.lower(), skill2.lower()).ratio()`. -/
def calculate_skill_match (skill1 skill2 : List Char) : ℚ :=
  ratioLC (lowerLC skill1) (lowerLC skill2)

/-- The string literal `'essential'`. -/
def essentialLC : List Char := ['e','s','s','e','n','t','i','a','l']

/-- The string literal `'optional'`. -/
def optionalLC : List Char := ['o','p','t','i','o','n','a','l']

/-- The string literal `'Beginner'` (default experience level). -/
def beginnerLC : List Char := ['B','e','g','i','n','n','e','r']

/-- A missing skill as produced by `kg.get_missing_skills`: the fields the
core reads (`skill_label`, `occupation_skill_level`, and the optional
`experience_level` read with default `'Beginner'`). -/
structure MissingSkill where
  skill_label : List Char
  occupation_skill_level : List Char
  experience_level : Option (List Char)
deriving DecidableEq

/-- One course dict from the Coursera response: the core reads `name` and
`description` with `element.get(..., '')` (absent keys become `''`). -/
structure CourseElement where
  name : Option (List Char)
  description : Option (List Char)
deriving DecidableEq

/-- A dict that may carry an `'elements'` key: both the Coursera response
and the argument of `calculate_course_match_score`.  `elements = none`
models a dict without the key (including the empty, falsy dict). -/
structure CoursesResponse where
  elements : Option (List CourseElement)
deriving DecidableEq

/-- One entry of the `matched_skills` trace. -/
structure MatchedSkill where
  skill : List Char
  score : ℚ
  level : List Char
deriving DecidableEq

/-- Result of `calculate_course_match_score`: the bare `0` returned for a
malformed argument (an `int`, not a dict), or the
`{'total_score': ..., 'matched_skills': ...}` dict. -/
inductive MatchResult where
  | intZero : MatchResult
  | scored (total_score : ℚ) (matched_skills : List MatchedSkill) : MatchResult
deriving DecidableEq

/-- `2 if skill['occupation_skill_level'] == 'essential' else 1`. -/
def weightFor (level : List Char) : ℚ :=
  if level = essentialLC then 2 else 1

/-- The inner loop of `calculate_course_match_score`: score every missing
skill against one course element (name and description already
lower-cased), accumulating `total_score` and the `matched_skills` trace. -/
def scoreSkillsForElement (course_name course_description : List Char) :
    List MissingSkill → ℚ × List MatchedSkill
  | [] => (0, [])
  | skill :: rest =>
    let skill_label := lowerLC skill.skill_label
    let name_match := calculate_skill_match skill_label course_name
    let desc_match := calculate_skill_match skill_label course_description
    let skill_score := name_match * (7/10) + desc_match * (3/10)
    let acc := scoreSkillsForElement course_name course_description rest
    if 3/10 < skill_score then
      (skill_score * weightFor skill.occupation_skill_level + acc.1,
       ⟨skill_label, skill_score, skill.occupation_skill_level⟩ :: acc.2)
    else acc

/-- The outer loop of `calculate_course_match_score` over
`course['elements']`. -/
def scoreElements (missing_skills : List MissingSkill) :
    List CourseElement → ℚ × List MatchedSkill
  | [] => (0, [])
  | element :: rest =>
    let course_name := lowerLC (element.name.getD [])
    let course_description := lowerLC (element.description.getD [])
    let here := scoreSkillsForElement course_name course_description missing_skills
    let acc := scoreElements missing_skills rest
    (here.1 + acc.1, here.2 ++ acc.2)

/-- `calculate_course_match_score(course, missing_skills)`: `0` when the
argument is falsy or lacks `'elements'`, otherwise the scored dict. -/
def calculate_course_match_score (course : Option CoursesResponse)
    (missing_skills : List MissingSkill) : MatchResult :=
  match course with
  | none => .intZero
  | some c =>
    match c.elements with
    | none => .intZero
    | some els =>
      let r := scoreElements missing_skills els
      .scored r.1 r.2

/-- The weighted combined similarity of one missing skill against one
course element (the `skill_score` computed inside the evaluator). -/
def combinedScore (skill : MissingSkill) (element : CourseElement) : ℚ :=
  let skill_label := lowerLC skill.skill_label
  calculate_skill_match skill_label (lowerLC (element.name.getD [])) * (7/10)
    + calculate_skill_match skill_label (lowerLC (element.description.getD [])) * (3/10)

/-- The contribution of one missing skill, against one course element, to
the aggregate `total_score`. -/
def skillContribution (skill : MissingSkill) (element : CourseElement) : ℚ :=
  if 3/10 < combinedScore skill element then
    combinedScore skill element * weightFor skill.occupation_skill_level
  else 0

/-- `get_coursera_courses(skill)`: a raw request that either returns a
response or raises; any exception is caught and turned into `None`. -/
def get_coursera_courses (raw : List Char → Except (List Char) CoursesResponse)
    (skill : List Char) : Option CoursesResponse :=
  match raw skill with
  | .ok response => some response
  | .error _ => none

/-- The `match_score` dict stored in a recommendation. -/
structure MatchScore where
  total_score : ℚ
  matched_skills : List MatchedSkill
deriving DecidableEq

/-- One recommendation dict appended to `all_courses`. -/
structure Recommendation where
  course : CourseElement
  match_score : MatchScore
  target_skill_level : List Char
  suitable_for_experience : List Char
deriving DecidableEq

/-- Stable insertion used to model `list.sort(key=..., reverse=True)`:
the new element goes in front of the first element whose key is not
larger.  Python's sort is stable descending by key; a stable sort is
determined by its key, so this insertion sort is extensionally the same
function. -/
def insSorted (x : Recommendation) : List Recommendation → List Recommendation
  | [] => [x]
  | h :: t =>
    if h.match_score.total_score ≤ x.match_score.total_score then x :: h :: t
    else h :: insSorted x t

/-- `all_courses.sort(key=lambda x: x['match_score']['total_score'],
reverse=True)`. -/
def sortDesc (l : List Recommendation) : List Recommendation :=
  l.foldr insSorted []

/-- The fetch-and-score loop of `get_course_recommendations_cached`: for
each skill of the iteration list, fetch courses for its label and score
every returned course against the full `missing_skills` list, keeping the
courses with positive `total_score`.  Also returns the sequence of
content-source queries issued (one per skill, in order). -/
def buildCourseRecs (missing_skills : List MissingSkill)
    (fetch : List Char → Option CoursesResponse) :
    List MissingSkill → List Recommendation × List (List Char)
  | [] => ([], [])
  | skill :: rest =>
    let here : List Recommendation :=
      match fetch skill.skill_label with
      | some courses =>
        match courses.elements with
        | some els =>
          els.filterMap (fun course =>
            -- the argument `{'elements': [course]}` is well-formed, so the
            -- evaluator always returns the scored dict here and the
            -- subscript `match_score['total_score']` cannot fail
            match calculate_course_match_score (some ⟨some [course]⟩) missing_skills with
            | .scored t m =>
              if 0 < t then
                some ⟨course, ⟨t, m⟩, skill.occupation_skill_level,
                      skill.experience_level.getD beginnerLC⟩
              else none
            | .intZero => none)
        | none => []
      | none => []
    let acc := buildCourseRecs missing_skills fetch rest
    (here ++ acc.1, skill.skill_label :: acc.2)

/-- Does the fetch for this skill yield a usable response
(`if courses and 'elements' in courses`)? -/
def respOk (fetch : List Char → Option CoursesResponse) (skill : MissingSkill) : Bool :=
  match fetch skill.skill_label with
  | some courses => courses.elements.isSome
  | none => false

/-- `get_course_recommendations_cached(_kg, employee_id, target_occupation,
top_k)`.  The taxonomy collaborator `_kg.get_missing_skills` is modelled by
its outcome (`Except`: an uncaught exception propagates); the content
source by the `raw` request wrapped in `get_coursera_courses`.  The second
component records the content-source queries issued. -/
def get_course_recommendations_cached
    (get_missing : Except (List Char) (List MissingSkill))
    (raw : List Char → Except (List Char) CoursesResponse)
    (top_k : Nat) :
    Except (List Char) (List Recommendation) × List (List Char) :=
  match get_missing with
  | .error e => (.error e, [])
  | .ok missing_skills =>
    if missing_skills = [] then (.ok [], [])
    else
      let b := buildCourseRecs missing_skills (get_coursera_courses raw) missing_skills
      (.ok ((sortDesc b.1).take top_k), b.2)

/-- A Python value passed to `calculate_skill_match`: a string, `None`,
or some other non-string object. -/
inductive PyInput where
  | pstr (s : List Char) : PyInput
  | pnone : PyInput
  | pint (n : Int) : PyInput
deriving DecidableEq

/-- The string literal `'AttributeError'`. -/
def attributeErrorLC : List Char :=
  ['A','t','t','r','i','b','u','t','e','E','r','r','o','r']

/-- `calculate_skill_match` on dynamically typed arguments: `skill1.lower()`
is evaluated first, then `skill2.lower()`; an argument without `.lower`
raises `AttributeError`. -/
def calculate_skill_match_dyn (skill1 skill2 : PyInput) : Except (List Char) ℚ :=
  match skill1 with
  | .pstr s1 =>
    match skill2 with
    | .pstr s2 => .ok (calculate_skill_match s1 s2)
    | _ => .error attributeErrorLC
  | _ => .error attributeErrorLC

/-! Basic bounds on matching runs. -/

theorem runlen_le_left (a b : List Char) (alo blo : Nat) :
    ∀ i j, alo ≤ i → runlen a b alo blo i j ≤ i + 1 - alo := by
  intro i
  induction i with
  | zero =>
    intro j h
    interval_cases alo
    simp only [runlen]
    split <;> omega
  | succ i ih =>
    intro j h
    cases j with
    | zero =>
      simp only [runlen]
      split <;> omega
    | succ j =>
      simp only [runlen]
      split
      · split
        · have := ih j (by omega)
          omega
        · omega
      · omega

theorem runlen_le_right (a b : List Char) (alo blo : Nat) :
    ∀ i j, blo ≤ j → runlen a b alo blo i j ≤ j + 1 - blo := by
  intro i
  induction i with
  | zero =>
    intro j h
    simp only [runlen]
    split <;> omega
  | succ i ih =>
    intro j h
    cases j with
    | zero =>
      interval_cases blo
      simp only [runlen]
      split <;> omega
    | succ j =>
      simp only [runlen]
      split
      · split
        · have := ih j (by omega)
          omega
        · omega
      · omega

/-- Characterisation of the scan of `find_longest_match`: either no run is
strictly longer than the starting best size and the accumulator survives,
or the result is the block of the first pair achieving the maximal run
length (every earlier pair has a strictly shorter run, every later pair no
longer one). -/
theorem foldl_flmStep_cases (a b : List Char) (alo blo : Nat) :
    ∀ (l : List (Nat × Nat)) (acc : MatchBlock),
      (l.foldl (flmStep a b alo blo) acc = acc ∧
        ∀ p ∈ l, runlen a b alo blo p.1 p.2 ≤ acc.bestsize) ∨
      (∃ l1 p l2, l = l1 ++ p :: l2 ∧
        l.foldl (flmStep a b alo blo) acc =
          ⟨p.1 + 1 - runlen a b alo blo p.1 p.2,
           p.2 + 1 - runlen a b alo blo p.1 p.2,
           runlen a b alo blo p.1 p.2⟩ ∧
        acc.bestsize < runlen a b alo blo p.1 p.2 ∧
        (∀ q ∈ l1, runlen a b alo blo q.1 q.2 < runlen a b alo blo p.1 p.2) ∧
        (∀ q ∈ l2, runlen a b alo blo q.1 q.2 ≤ runlen a b alo blo p.1 p.2)) := by
  intro l
  induction l with
  | nil => exact fun acc => Or.inl ⟨rfl, by simp⟩
  | cons q t ih =>
    intro acc
    by_cases hq : acc.bestsize < runlen a b alo blo q.1 q.2
    · have hstep : flmStep a b alo blo acc q =
          ⟨q.1 + 1 - runlen a b alo blo q.1 q.2,
           q.2 + 1 - runlen a b alo blo q.1 q.2,
           runlen a b alo blo q.1 q.2⟩ := by
        simp only [flmStep, if_pos hq]
      rcases ih (flmStep a b alo blo acc q) with ⟨heq, hall⟩ | ⟨l1, p, l2, hsp, heq, hgt, h1, h2⟩
      · refine Or.inr ⟨[], q, t, by simp, ?_, hq, by simp, ?_⟩
        · simpa [List.foldl_cons, hstep] using heq.trans hstep
        · intro p hp
          have := hall p hp
          rw [hstep] at this
          exact this
      · rw [hstep] at hgt
        refine Or.inr ⟨q :: l1, p, l2, by simp [hsp], ?_, ?_, ?_, h2⟩
        · simpa [List.foldl_cons] using heq
        · exact lt_trans hq hgt
        · intro r hr
          rcases List.mem_cons.mp hr with rfl | hr
          · exact hgt
          · exact h1 r hr
    · have hstep : flmStep a b alo blo acc q = acc := by
        simp only [flmStep, if_neg hq]
      rcases ih (flmStep a b alo blo acc q) with ⟨heq, hall⟩ | ⟨l1, p, l2, hsp, heq, hgt, h1, h2⟩
      · refine Or.inl ⟨by simpa [List.foldl_cons, hstep] using heq.trans hstep, ?_⟩
        intro p hp
        rcases List.mem_cons.mp hp with rfl | hp
        · omega
        · have := hall p hp
          rw [hstep] at this
          exact this
      · rw [hstep] at hgt
        refine Or.inr ⟨q :: l1, p, l2, by simp [hsp], ?_, hgt, ?_, h2⟩
        · simpa [List.foldl_cons] using heq
        · intro r hr
          rcases List.mem_cons.mp hr with rfl | hr
          · omega
          · exact h1 r hr

theorem pairsIdx_mem (alo ahi blo bhi : Nat) (p : Nat × Nat) :
    p ∈ pairsIdx alo ahi blo bhi ↔
      alo ≤ p.1 ∧ p.1 < ahi ∧ blo ≤ p.2 ∧ p.2 < bhi := by
  obtain ⟨i, j⟩ := p
  simp only [pairsIdx, List.mem_flatMap, List.mem_map, List.mem_range'_1,
    Prod.mk.injEq]
  constructor
  · rintro ⟨i2, ⟨hi1, hi2⟩, j2, ⟨hj1, hj2⟩, rfl, rfl⟩
    omega
  · rintro ⟨h1, h2, h3, h4⟩
    exact ⟨i, by omega, j, by omega, rfl, rfl⟩

theorem flatMap_pairs_pairwise (J : List Nat) (hJ : J.Pairwise (· < ·)) :
    ∀ I : List Nat, I.Pairwise (· < ·) →
      (I.flatMap (fun i => J.map (fun j => (i, j)))).Pairwise lexLT := by
  intro I
  induction I with
  | nil => simp
  | cons i t ih =>
    intro hI
    rw [List.pairwise_cons] at hI
    rw [List.flatMap_cons, List.pairwise_append]
    refine ⟨?_, ih hI.2, ?_⟩
    · refine List.Pairwise.map _ ?_ hJ
      intro x y hxy
      exact Or.inr ⟨rfl, hxy⟩
    · intro x hx y hy
      obtain ⟨j, _, rfl⟩ := List.mem_map.mp hx
      obtain ⟨i2, hi2, hy2⟩ := List.mem_flatMap.mp hy
      obtain ⟨j2, _, rfl⟩ := List.mem_map.mp hy2
      exact Or.inl (hI.1 i2 hi2)

theorem pairsIdx_pairwise (alo ahi blo bhi : Nat) :
    (pairsIdx alo ahi blo bhi).Pairwise lexLT :=
  flatMap_pairs_pairwise (List.range' blo (bhi - blo))
    (List.pairwise_lt_range' blo (bhi - blo) 1 (by simp))
    (List.range' alo (ahi - alo))
    (List.pairwise_lt_range' alo (ahi - alo) 1 (by simp))

theorem extLeftCount_le (a b : List Char) (alo blo : Nat) :
    ∀ i j, extLeftCount a b alo blo i j ≤ i - alo ∧
      extLeftCount a b alo blo i j ≤ j - blo := by
  intro i
  induction i with
  | zero =>
    intro j
    cases j <;> simp [extLeftCount]
  | succ i ih =>
    intro j
    cases j with
    | zero => simp [extLeftCount]
    | succ j =>
      simp only [extLeftCount]
      split
      · rename_i h
        have := ih j
        omega
      · omega

theorem extRightSize_post (a b : List Char) (ahi bhi i j : Nat) :
    ∀ f k, extRightSize a b ahi bhi i j f k = k ∨
      (i + extRightSize a b ahi bhi i j f k ≤ ahi ∧
       j + extRightSize a b ahi bhi i j f k ≤ bhi) := by
  intro f
  induction f with
  | zero => exact fun k => Or.inl rfl
  | succ f ih =>
    intro k
    simp only [extRightSize]
    split
    · rename_i h
      rcases ih (k + 1) with heq | hb
      · rw [heq]
        right
        omega
      · right
        exact hb
    · left
      rfl

theorem findLongestMatch_bounds (a b : List Char) (alo ahi blo bhi : Nat)
    (h : (findLongestMatch a b alo ahi blo bhi).bestsize ≠ 0) :
    alo ≤ (findLongestMatch a b alo ahi blo bhi).besti ∧
    (findLongestMatch a b alo ahi blo bhi).besti +
      (findLongestMatch a b alo ahi blo bhi).bestsize ≤ ahi ∧
    blo ≤ (findLongestMatch a b alo ahi blo bhi).bestj ∧
    (findLongestMatch a b alo ahi blo bhi).bestj +
      (findLongestMatch a b alo ahi blo bhi).bestsize ≤ bhi := by
  have hr := foldl_flmStep_cases a b alo blo (pairsIdx alo ahi blo bhi) ⟨alo, blo, 0⟩
  set r := (pairsIdx alo ahi blo bhi).foldl (flmStep a b alo blo) ⟨alo, blo, 0⟩ with hrdef
  have hbase : alo ≤ r.besti ∧ blo ≤ r.bestj ∧
      (r.bestsize ≠ 0 → r.besti + r.bestsize ≤ ahi ∧ r.bestj + r.bestsize ≤ bhi) ∧
      (r.bestsize = 0 → r.besti = alo ∧ r.bestj = blo) := by
    rcases hr with ⟨heq, _⟩ | ⟨l1, p, l2, hsp, heq, hgt, _, _⟩
    · rw [heq]
      exact ⟨le_refl _, le_refl _, fun h0 => absurd rfl h0, fun _ => ⟨rfl, rfl⟩⟩
    · have hp : p ∈ pairsIdx alo ahi blo bhi := by
        rw [hsp]
        simp
      rw [pairsIdx_mem] at hp
      have h1 := runlen_le_left a b alo blo p.1 p.2 hp.1
      have h2 := runlen_le_right a b alo blo p.1 p.2 hp.2.2.1
      rw [heq]
      simp only
      exact ⟨by omega, by omega, fun _ => ⟨by omega, by omega⟩, fun h0 => by omega⟩
  have hel := extLeftCount_le a b alo blo r.besti r.bestj
  have hpost := extRightSize_post a b ahi bhi (r.besti - extLeftCount a b alo blo r.besti r.bestj)
      (r.bestj - extLeftCount a b alo blo r.besti r.bestj)
      (ahi - (r.bestsize + extLeftCount a b alo blo r.besti r.bestj))
      (r.bestsize + extLeftCount a b alo blo r.besti r.bestj)
  have hflm : findLongestMatch a b alo ahi blo bhi =
      ⟨r.besti - extLeftCount a b alo blo r.besti r.bestj,
       r.bestj - extLeftCount a b alo blo r.besti r.bestj,
       extRightSize a b ahi bhi
         (r.besti - extLeftCount a b alo blo r.besti r.bestj)
         (r.bestj - extLeftCount a b alo blo r.besti r.bestj)
         (ahi - (r.bestsize + extLeftCount a b alo blo r.besti r.bestj))
         (r.bestsize + extLeftCount a b alo blo r.besti r.bestj)⟩ := by
    rw [findLongestMatch]
  rw [hflm] at h ⊢
  dsimp only at h ⊢
  have hb1 := hbase.1
  have hb2 := hbase.2.1
  have he1 := hel.1
  have he2 := hel.2
  rcases hpost with heq | hb
  · rw [heq] at h ⊢
    have hk0 : r.bestsize ≠ 0 := by
      intro h0
      obtain ⟨hia, hjb⟩ := hbase.2.2.2 h0
      apply h
      omega
    have := hbase.2.2.1 hk0
    refine ⟨by omega, by omega, by omega, by omega⟩
  · refine ⟨by omega, by omega, by omega, by omega⟩

theorem mtotF_le (a b : List Char) :
    ∀ f alo ahi blo bhi, mtotF a b f alo ahi blo bhi ≤ ahi - alo ∧
      mtotF a b f alo ahi blo bhi ≤ bhi - blo := by
  intro f
  induction f with
  | zero => intro alo ahi blo bhi; simp [mtotF]
  | succ f ih =>
    intro alo ahi blo bhi
    simp only [mtotF]
    by_cases hk : (findLongestMatch a b alo ahi blo bhi).bestsize = 0
    · simp [hk]
    · obtain ⟨hb1, hb2, hb3, hb4⟩ := findLongestMatch_bounds a b alo ahi blo bhi hk
      rw [if_neg hk]
      have ihl := ih alo (findLongestMatch a b alo ahi blo bhi).besti blo
        (findLongestMatch a b alo ahi blo bhi).bestj
      have ihr := ih ((findLongestMatch a b alo ahi blo bhi).besti +
          (findLongestMatch a b alo ahi blo bhi).bestsize) ahi
        ((findLongestMatch a b alo ahi blo bhi).bestj +
          (findLongestMatch a b alo ahi blo bhi).bestsize) bhi
      constructor
      · split <;> split <;> omega
      · split <;> split <;> omega

/-! The diagonal case: `find_longest_match` of a string against itself. -/

theorem runlen_diag_left (a : List Char) (lo : Nat) :
    ∀ i j, i ≤ j → runlen a a lo lo i j ≤ runlen a a lo lo i i := by
  intro i
  induction i with
  | zero =>
    intro j hij
    simp only [runlen]
    split
    · rename_i hm
      rw [matchAt, Bool.and_eq_true, decide_eq_true_iff] at hm
      have hm2 : matchAt a a 0 0 = true := by
        rw [matchAt, Bool.and_eq_true, decide_eq_true_iff]
        exact ⟨rfl, by rw [← hm.1] at hm; exact hm.2⟩
      cases j with
      | zero => simp [hm2]
      | succ j => simp [runlen, hm2]
    · omega
  | succ i ih =>
    intro j hij
    cases j with
    | zero => omega
    | succ j =>
      simp only [runlen]
      split
      · rename_i hm
        rw [matchAt, Bool.and_eq_true, decide_eq_true_iff] at hm
        have hm2 : matchAt a a (i+1) (i+1) = true := by
          rw [matchAt, Bool.and_eq_true, decide_eq_true_iff]
          exact ⟨rfl, by rw [← hm.1] at hm; exact hm.2⟩
        rw [if_pos hm2]
        by_cases hlo : lo < i + 1
        · rw [if_pos ⟨hlo, by omega⟩, if_pos ⟨hlo, hlo⟩]
          have := ih j (by omega)
          omega
        · rw [if_neg (by omega), if_neg (by omega)]
      · omega

theorem runlen_diag_right (a : List Char) (lo : Nat) :
    ∀ i j, j ≤ i → runlen a a lo lo i j ≤ runlen a a lo lo j j := by
  intro i
  induction i with
  | zero =>
    intro j hij
    interval_cases j
    exact le_refl _
  | succ i ih =>
    intro j hij
    cases j with
    | zero =>
      simp only [runlen]
      split
      · rename_i hm
        rw [matchAt, Bool.and_eq_true, decide_eq_true_iff] at hm
        have hm2 : matchAt a a 0 0 = true := by
          rw [matchAt, Bool.and_eq_true, decide_eq_true_iff]
          exact ⟨rfl, hm.2⟩
        simp [hm2]
      · omega
    | succ j =>
      simp only [runlen]
      split
      · rename_i hm
        rw [matchAt, Bool.and_eq_true, decide_eq_true_iff] at hm
        have hm2 : matchAt a a (j+1) (j+1) = true := by
          rw [matchAt, Bool.and_eq_true, decide_eq_true_iff]
          exact ⟨rfl, hm.2⟩
        rw [if_pos hm2]
        by_cases hlo : lo < j + 1
        · rw [if_pos ⟨by omega, hlo⟩, if_pos ⟨hlo, hlo⟩]
          have := ih j (by omega)
          omega
        · rw [if_neg (by omega), if_neg (by omega)]
      · omega

/-- On a string against itself the scan of `find_longest_match` returns a
diagonal block: the first maximal run is found at a diagonal pair. -/
theorem foldl_diag (a : List Char) (lo hi : Nat) (hlohi : lo ≤ hi) :
    ((pairsIdx lo hi lo hi).foldl (flmStep a a lo lo) ⟨lo, lo, 0⟩).besti =
      ((pairsIdx lo hi lo hi).foldl (flmStep a a lo lo) ⟨lo, lo, 0⟩).bestj ∧
    lo ≤ ((pairsIdx lo hi lo hi).foldl (flmStep a a lo lo) ⟨lo, lo, 0⟩).besti ∧
    ((pairsIdx lo hi lo hi).foldl (flmStep a a lo lo) ⟨lo, lo, 0⟩).besti +
      ((pairsIdx lo hi lo hi).foldl (flmStep a a lo lo) ⟨lo, lo, 0⟩).bestsize ≤ hi := by
  rcases foldl_flmStep_cases a a lo lo (pairsIdx lo hi lo hi) ⟨lo, lo, 0⟩ with
    ⟨heq, _⟩ | ⟨l1, p, l2, hsp, heq, hgt, h1, h2⟩
  · rw [heq]
    exact ⟨rfl, le_refl _, by simpa using hlohi⟩
  · have hgt2 : 0 < runlen a a lo lo p.1 p.2 := by simpa using hgt
    have hp : p ∈ pairsIdx lo hi lo hi := by
      rw [hsp]; simp
    rw [pairsIdx_mem] at hp
    have hdiag : p.1 = p.2 := by
      by_contra hne
      have hmm : ((min p.1 p.2, min p.1 p.2) : Nat × Nat) ∈ pairsIdx lo hi lo hi := by
        rw [pairsIdx_mem]
        constructor
        · simp only [le_min_iff]
          exact ⟨hp.1, hp.2.2.1⟩
        · refine ⟨by omega, by omega, by omega⟩
      have hkey : runlen a a lo lo p.1 p.2 ≤
          runlen a a lo lo (min p.1 p.2) (min p.1 p.2) := by
        rcases Nat.le_total p.1 p.2 with hle | hle
        · rw [min_eq_left hle]
          exact runlen_diag_left a lo p.1 p.2 hle
        · rw [min_eq_right hle]
          exact runlen_diag_right a lo p.1 p.2 hle
      rw [hsp] at hmm
      rcases List.mem_append.mp hmm with hin1 | hin2
      · have hlt := h1 _ hin1
        dsimp only at hlt
        omega
      · rcases List.mem_cons.mp hin2 with heqp | hin2
        · have h1e : p.1 = min p.1 p.2 := congrArg Prod.fst heqp.symm
          have h2e : p.2 = min p.1 p.2 := congrArg Prod.snd heqp.symm
          omega
        · have hsort := pairsIdx_pairwise lo hi lo hi
          rw [hsp] at hsort
          have hpl2 : ∀ y ∈ l2, lexLT p y :=
            (List.pairwise_cons.mp (List.pairwise_append.mp hsort).2.1).1
          have hlex := hpl2 _ hin2
          rw [lexLT] at hlex
          dsimp only at hlex
          omega
    have hk1 := runlen_le_left a a lo lo p.1 p.2 hp.1
    rw [heq]
    simp only
    refine ⟨by rw [hdiag], by omega, by omega⟩

theorem extLeftCount_diag (a : List Char) (lo : Nat) :
    ∀ m, extLeftCount a a lo lo m m = m - lo := by
  intro m
  induction m with
  | zero => simp [extLeftCount]
  | succ m ih =>
    simp only [extLeftCount]
    by_cases hlo : lo < m + 1
    · rw [if_pos ⟨hlo, hlo, by trivial⟩, ih]
      omega
    · rw [if_neg (by simp [hlo])]
      omega

theorem extRightSize_diag (a : List Char) (lo hi : Nat) :
    ∀ f k, hi ≤ lo + k + f → lo + k ≤ hi →
      extRightSize a a hi hi lo lo f k = hi - lo := by
  intro f
  induction f with
  | zero =>
    intro k h1 h2
    simp only [extRightSize]
    omega
  | succ f ih =>
    intro k h1 h2
    simp only [extRightSize]
    by_cases hk : lo + k < hi
    · rw [if_pos ⟨hk, hk, by trivial⟩]
      exact ih (k+1) (by omega) (by omega)
    · rw [if_neg (by simp [hk])]
      omega

theorem findLongestMatch_diag (a : List Char) (lo hi : Nat) (hlohi : lo ≤ hi) :
    findLongestMatch a a lo hi lo hi = ⟨lo, lo, hi - lo⟩ := by
  obtain ⟨hd, hlo2, hhi2⟩ := foldl_diag a lo hi hlohi
  set r := (pairsIdx lo hi lo hi).foldl (flmStep a a lo lo) ⟨lo, lo, 0⟩ with hrdef
  have he : extLeftCount a a lo lo r.besti r.bestj = r.besti - lo := by
    rw [← hd]
    exact extLeftCount_diag a lo r.besti
  have hflm : findLongestMatch a a lo hi lo hi =
      ⟨r.besti - extLeftCount a a lo lo r.besti r.bestj,
       r.bestj - extLeftCount a a lo lo r.besti r.bestj,
       extRightSize a a hi hi
         (r.besti - extLeftCount a a lo lo r.besti r.bestj)
         (r.bestj - extLeftCount a a lo lo r.besti r.bestj)
         (hi - (r.bestsize + extLeftCount a a lo lo r.besti r.bestj))
         (r.bestsize + extLeftCount a a lo lo r.besti r.bestj)⟩ := by
    rw [findLongestMatch]
  rw [hflm, he, ← hd]
  have hil : r.besti - (r.besti - lo) = lo := by omega
  rw [hil]
  have hkk : r.bestsize + (r.besti - lo) ≤ hi - lo := by omega
  rw [extRightSize_diag a lo hi _ _ (by omega) (by omega)]

theorem mtot_self (a : List Char) : mtot a a = a.length := by
  rw [mtot]
  simp only [mtotF]
  rw [findLongestMatch_diag a 0 a.length (Nat.zero_le _)]
  by_cases h0 : a.length = 0
  · simp [h0]
  · simp [h0]

theorem ratioLC_nonneg (a b : List Char) : 0 ≤ ratioLC a b := by
  rw [ratioLC]
  split
  · norm_num
  · positivity

theorem ratioLC_le_one (a b : List Char) : ratioLC a b ≤ 1 := by
  rw [ratioLC]
  split
  · norm_num
  · rename_i hne
    have hm1 := (mtotF_le a b (a.length + 1) 0 a.length 0 b.length).1
    have hm2 := (mtotF_le a b (a.length + 1) 0 a.length 0 b.length).2
    have hpos : (0:ℚ) < (a.length : ℚ) + (b.length : ℚ) := by
      exact_mod_cast Nat.pos_of_ne_zero hne
    rw [div_le_one hpos]
    have hle : 2 * mtot a b ≤ a.length + b.length := by
      rw [mtot]
      omega
    exact_mod_cast hle

theorem ratioLC_self (a : List Char) : ratioLC a a = 1 := by
  rw [ratioLC]
  split
  · rfl
  · rename_i hne
    rw [mtot_self]
    have hn : a.length ≠ 0 := by omega
    have hsum : ((a.length:ℚ) + (a.length:ℚ)) = 2 * (a.length:ℚ) := by ring
    rw [hsum, div_self]
    exact mul_ne_zero two_ne_zero (Nat.cast_ne_zero.mpr hn)

/-- C7: For all string inputs the Similarity Scorer returns a value in
[0,1], compares the lower-cased forms of its arguments, and returns
exactly 1 whenever the two arguments are equal after lower-casing. -/
theorem claim_C7_similarity_contract (skill1 skill2 : List Char) :
    0 ≤ calculate_skill_match skill1 skill2 ∧
    calculate_skill_match skill1 skill2 ≤ 1 ∧
    calculate_skill_match skill1 skill2 = ratioLC (lowerLC skill1) (lowerLC skill2) ∧
    (lowerLC skill1 = lowerLC skill2 → calculate_skill_match skill1 skill2 = 1) := by
  refine ⟨ratioLC_nonneg _ _, ratioLC_le_one _ _, rfl, ?_⟩
  intro h
  rw [calculate_skill_match, h]
  exact ratioLC_self _

/-- Witness for C7 at a concrete input: two strings that are equal after
lower-casing score exactly 1. -/
theorem claim_C7_similarity_contract_witness :
    lowerLC ['P','y'] = lowerLC ['p','Y'] ∧
      calculate_skill_match ['P','y'] ['p','Y'] = 1 :=
  ⟨by decide, (claim_C7_similarity_contract ['P','y'] ['p','Y']).2.2.2 (by decide)⟩

/-! The Item Relevance Evaluator. -/

theorem scoreSkillsForElement_append (cn cd : List Char) (m1 m2 : List MissingSkill) :
    scoreSkillsForElement cn cd (m1 ++ m2) =
      ((scoreSkillsForElement cn cd m1).1 + (scoreSkillsForElement cn cd m2).1,
       (scoreSkillsForElement cn cd m1).2 ++ (scoreSkillsForElement cn cd m2).2) := by
  induction m1 with
  | nil => simp [scoreSkillsForElement]
  | cons s t ih =>
    simp only [List.cons_append, scoreSkillsForElement, List.append_eq, ih]
    split
    all_goals
      first
      | rfl
      | (simp only [Prod.mk.injEq]
         exact ⟨by ring, by simp⟩)

theorem scoreElements_single (missing : List MissingSkill) (e : CourseElement) :
    scoreElements missing [e] =
      scoreSkillsForElement (lowerLC (e.name.getD []))
        (lowerLC (e.description.getD [])) missing := by
  simp [scoreElements]

theorem scoreSkillsForElement_cons_elem (e : CourseElement) (s : MissingSkill)
    (rest : List MissingSkill) :
    scoreSkillsForElement (lowerLC (e.name.getD []))
        (lowerLC (e.description.getD [])) (s :: rest) =
      if 3/10 < combinedScore s e then
        (combinedScore s e * weightFor s.occupation_skill_level +
           (scoreSkillsForElement (lowerLC (e.name.getD []))
             (lowerLC (e.description.getD [])) rest).1,
         ⟨lowerLC s.skill_label, combinedScore s e, s.occupation_skill_level⟩ ::
           (scoreSkillsForElement (lowerLC (e.name.getD []))
             (lowerLC (e.description.getD [])) rest).2)
      else
        scoreSkillsForElement (lowerLC (e.name.getD []))
          (lowerLC (e.description.getD [])) rest := rfl

theorem scoreSkillsForElement_drop (e : CourseElement) (s : MissingSkill)
    (hs : combinedScore s e ≤ 3/10) (m1 m2 : List MissingSkill) :
    scoreSkillsForElement (lowerLC (e.name.getD []))
        (lowerLC (e.description.getD [])) (m1 ++ s :: m2) =
      scoreSkillsForElement (lowerLC (e.name.getD []))
        (lowerLC (e.description.getD [])) (m1 ++ m2) := by
  rw [scoreSkillsForElement_append, scoreSkillsForElement_append,
    scoreSkillsForElement_cons_elem, if_neg (by exact absurd · (not_lt.mpr hs))]

theorem scoreElements_drop (skill : MissingSkill) (els : List CourseElement)
    (h : ∀ e ∈ els, combinedScore skill e ≤ 3/10) (m1 m2 : List MissingSkill) :
    scoreElements (m1 ++ skill :: m2) els = scoreElements (m1 ++ m2) els := by
  induction els with
  | nil => rfl
  | cons e t ih =>
    simp only [scoreElements]
    rw [scoreSkillsForElement_drop e skill (h e (by simp)) m1 m2,
      ih (fun e2 he2 => h e2 (by simp [he2]))]

/-- C2: a (missing capability, candidate item) pair whose weighted combined
similarity is at most the 0.3 threshold contributes nothing: the evaluator
returns exactly what it returns without that capability, so the capability
appears in no matched-skills trace and adds nothing to the total score. -/
theorem claim_C2_threshold (skill : MissingSkill) (els : List CourseElement)
    (m1 m2 : List MissingSkill)
    (h : ∀ e ∈ els, combinedScore skill e ≤ 3/10) :
    calculate_course_match_score (some ⟨some els⟩) (m1 ++ skill :: m2) =
      calculate_course_match_score (some ⟨some els⟩) (m1 ++ m2) := by
  simp only [calculate_course_match_score]
  rw [scoreElements_drop skill els h m1 m2]

/-- Witness for C2: the capability `'xx'` scores 0 ≤ 0.3 against the item
named `'qq'`, and dropping it leaves the evaluation unchanged. -/
theorem claim_C2_threshold_witness :
    (∀ e ∈ [CourseElement.mk (some ['q','q']) none],
        combinedScore ⟨['x','x'], optionalLC, none⟩ e ≤ 3/10) ∧
    calculate_course_match_score (some ⟨some [⟨some ['q','q'], none⟩]⟩)
        ([] ++ ⟨['x','x'], optionalLC, none⟩ :: []) =
      calculate_course_match_score (some ⟨some [⟨some ['q','q'], none⟩]⟩) ([] ++ []) := by
  have hcs : combinedScore ⟨['x','x'], optionalLC, none⟩ ⟨some ['q','q'], none⟩ ≤ 3/10 := by
    have h1 : mtot ['x','x'] ['q','q'] = 0 := by decide
    have h2 : mtot ['x','x'] [] = 0 := by decide
    simp only [combinedScore, calculate_skill_match, ratioLC, lowerLC]
    norm_num [show (['x','x'].map Char.toLower) = ['x','x'] from by decide,
      show (['q','q'].map Char.toLower) = ['q','q'] from by decide] at h1 h2 ⊢
    norm_num [h1, h2]
  have hh : ∀ e ∈ [CourseElement.mk (some ['q','q']) none],
      combinedScore ⟨['x','x'], optionalLC, none⟩ e ≤ 3/10 := by
    intro e he
    simp only [List.mem_singleton] at he
    subst he
    exact hcs
  exact ⟨hh, claim_C2_threshold ⟨['x','x'], optionalLC, none⟩ _ [] [] hh⟩

theorem scoreElements_total_insert (skill : MissingSkill) (e : CourseElement)
    (m1 m2 : List MissingSkill) :
    (scoreElements (m1 ++ skill :: m2) [e]).1 =
      (scoreElements (m1 ++ m2) [e]).1 + skillContribution skill e := by
  rw [scoreElements_single, scoreElements_single, scoreSkillsForElement_append,
    scoreSkillsForElement_append, scoreSkillsForElement_cons_elem, skillContribution]
  split
  · simp only
    ring
  · simp only
    ring

/-- C3: for two missing capabilities identical except for required-level,
with the same combined similarity above the threshold, the essential one
adds `combined * 2` to the aggregate score and the optional one
`combined * 1`: the essential contribution is exactly twice the optional
one. -/
theorem claim_C3_weighting (label : List Char) (exp : Option (List Char))
    (e : CourseElement) (m1 m2 : List MissingSkill)
    (h : 3/10 < combinedScore ⟨label, essentialLC, exp⟩ e) :
    (scoreElements (m1 ++ ⟨label, essentialLC, exp⟩ :: m2) [e]).1 -
        (scoreElements (m1 ++ m2) [e]).1 =
      combinedScore ⟨label, essentialLC, exp⟩ e * 2 ∧
    (scoreElements (m1 ++ ⟨label, optionalLC, exp⟩ :: m2) [e]).1 -
        (scoreElements (m1 ++ m2) [e]).1 =
      combinedScore ⟨label, optionalLC, exp⟩ e * 1 ∧
    combinedScore ⟨label, essentialLC, exp⟩ e =
      combinedScore ⟨label, optionalLC, exp⟩ e ∧
    (scoreElements (m1 ++ ⟨label, essentialLC, exp⟩ :: m2) [e]).1 -
        (scoreElements (m1 ++ m2) [e]).1 =
      2 * ((scoreElements (m1 ++ ⟨label, optionalLC, exp⟩ :: m2) [e]).1 -
        (scoreElements (m1 ++ m2) [e]).1) := by
  have hco : combinedScore ⟨label, essentialLC, exp⟩ e =
      combinedScore ⟨label, optionalLC, exp⟩ e := rfl
  have h1 := scoreElements_total_insert ⟨label, essentialLC, exp⟩ e m1 m2
  have h2 := scoreElements_total_insert ⟨label, optionalLC, exp⟩ e m1 m2
  have hc1 : skillContribution ⟨label, essentialLC, exp⟩ e =
      combinedScore ⟨label, essentialLC, exp⟩ e * 2 := by
    rw [skillContribution, if_pos h]
    simp [weightFor]
  have hc2 : skillContribution ⟨label, optionalLC, exp⟩ e =
      combinedScore ⟨label, optionalLC, exp⟩ e * 1 := by
    rw [skillContribution, if_pos (by rw [← hco]; exact h)]
    simp only [weightFor]
    rw [if_neg (by decide)]
  refine ⟨?_, ?_, hco, ?_⟩
  · rw [h1, hc1]
    ring
  · rw [h2, hc2]
    ring
  · rw [h1, h2, hc1, hc2, hco]
    ring

/-- Witness for C3 at a concrete input: the capability label equals the
item name, so the combined similarity is 0.7 > 0.3. -/
theorem claim_C3_weighting_witness :
    3/10 < combinedScore ⟨['p','y'], essentialLC, none⟩ ⟨some ['p','y'], none⟩ ∧
    (scoreElements ([] ++ ⟨['p','y'], essentialLC, none⟩ :: []) [⟨some ['p','y'], none⟩]).1 -
        (scoreElements ([] ++ []) [⟨some ['p','y'], none⟩]).1 =
      2 * ((scoreElements ([] ++ ⟨['p','y'], optionalLC, none⟩ :: []) [⟨some ['p','y'], none⟩]).1 -
        (scoreElements ([] ++ []) [⟨some ['p','y'], none⟩]).1) := by
  have hgt : 3/10 < combinedScore ⟨['p','y'], essentialLC, none⟩ ⟨some ['p','y'], none⟩ := by
    have h1 : mtot ['p','y'] ['p','y'] = 2 := by decide
    have h2 : mtot ['p','y'] [] = 0 := by decide
    simp only [combinedScore, calculate_skill_match, ratioLC, lowerLC]
    norm_num [show (['p','y'].map Char.toLower) = ['p','y'] from by decide] at h1 h2 ⊢
    norm_num [h1, h2]
  exact ⟨hgt, (claim_C3_weighting ['p','y'] none ⟨some ['p','y'], none⟩ [] [] hgt).2.2.2⟩

theorem weightFor_pos (level : List Char) : 0 < weightFor level := by
  rw [weightFor]
  split <;> norm_num

theorem scoreSkillsForElement_invariant (cn cd : List Char) :
    ∀ missing : List MissingSkill,
      (scoreSkillsForElement cn cd missing).1 =
        ((scoreSkillsForElement cn cd missing).2.map
          (fun m => m.score * weightFor m.level)).sum ∧
      ∀ m ∈ (scoreSkillsForElement cn cd missing).2, 3/10 < m.score := by
  intro missing
  induction missing with
  | nil => simp [scoreSkillsForElement]
  | cons s t ih =>
    simp only [scoreSkillsForElement]
    split
    · rename_i hgt
      refine ⟨?_, ?_⟩
      · simp only [List.map_cons, List.sum_cons, ih.1]
      · intro m hm
        rcases List.mem_cons.mp hm with rfl | hm
        · exact hgt
        · exact ih.2 m hm
    · exact ih

theorem scoreElements_invariant (missing : List MissingSkill) :
    ∀ els : List CourseElement,
      (scoreElements missing els).1 =
        ((scoreElements missing els).2.map
          (fun m => m.score * weightFor m.level)).sum ∧
      ∀ m ∈ (scoreElements missing els).2, 3/10 < m.score := by
  intro els
  induction els with
  | nil => simp [scoreElements]
  | cons e t ih =>
    simp only [scoreElements]
    have hsk := scoreSkillsForElement_invariant (lowerLC (e.name.getD []))
      (lowerLC (e.description.getD [])) missing
    refine ⟨?_, ?_⟩
    · simp only [List.map_append, List.sum_append, hsk.1, ih.1]
    · intro m hm
      rcases List.mem_append.mp hm with hm | hm
      · exact hsk.2 m hm
      · exact ih.2 m hm

theorem matched_sum_pos (l : List MatchedSkill) (hall : ∀ m ∈ l, 3/10 < m.score)
    (hne : l ≠ []) : 0 < (l.map (fun m => m.score * weightFor m.level)).sum := by
  induction l with
  | nil => exact absurd rfl hne
  | cons m t ih =>
    simp only [List.map_cons, List.sum_cons]
    have hm : 0 < m.score * weightFor m.level :=
      mul_pos (lt_trans (by norm_num) (hall m (by simp))) (weightFor_pos _)
    have ht : 0 ≤ (t.map (fun m => m.score * weightFor m.level)).sum := by
      apply List.sum_nonneg
      intro q hq
      obtain ⟨m2, hm2, rfl⟩ := List.mem_map.mp hq
      exact le_of_lt (mul_pos (lt_trans (by norm_num) (hall m2 (by simp [hm2])))
        (weightFor_pos _))
    linarith

/-- C10: on a well-formed item the evaluator returns the scored dict whose
total equals the sum over the matched-skills trace of score × weight
(2 for `'essential'`, else 1), every trace entry's score is strictly above
the 0.3 threshold, and the total is positive exactly when the trace is
non-empty. -/
theorem claim_C10_invariant (els : List CourseElement) (missing : List MissingSkill) :
    calculate_course_match_score (some ⟨some els⟩) missing =
      .scored (scoreElements missing els).1 (scoreElements missing els).2 ∧
    (scoreElements missing els).1 =
      ((scoreElements missing els).2.map
        (fun m => m.score * weightFor m.level)).sum ∧
    (∀ m ∈ (scoreElements missing els).2, 3/10 < m.score) ∧
    (0 < (scoreElements missing els).1 ↔ (scoreElements missing els).2 ≠ []) := by
  obtain ⟨hsum, hall⟩ := scoreElements_invariant missing els
  refine ⟨rfl, hsum, hall, ?_⟩
  constructor
  · intro hpos hnil
    rw [hsum, hnil] at hpos
    simp at hpos
  · intro hne
    rw [hsum]
    exact matched_sum_pos _ hall hne

/-- Witness for C10 at a concrete input: the total equals the weighted sum
over the trace. -/
theorem claim_C10_invariant_witness :
    (scoreElements [⟨['p','y'], essentialLC, none⟩] [⟨some ['p','y'], none⟩]).1 =
      ((scoreElements [⟨['p','y'], essentialLC, none⟩] [⟨some ['p','y'], none⟩]).2.map
        (fun m => m.score * weightFor m.level)).sum :=
  (claim_C10_invariant [⟨some ['p','y'], none⟩] [⟨['p','y'], essentialLC, none⟩]).2.1

/-- C9: a malformed candidate argument (`None`, or a dict without the
`'elements'` key, including the empty falsy dict) is answered with the
plain zero value, not an exception; on the aggregator's bulk path the
argument is always the well-formed `{'elements': [course]}`, so the
evaluator always returns the scored dict there and the subscript
`match_score['total_score']` cannot fail; a missing `name` or
`description` key is read as the empty string. -/
theorem claim_C9_malformed (missing : List MissingSkill) :
    calculate_course_match_score none missing = .intZero ∧
    calculate_course_match_score (some ⟨none⟩) missing = .intZero ∧
    (∀ course : CourseElement, ∃ t m,
      calculate_course_match_score (some ⟨some [course]⟩) missing = .scored t m) ∧
    (∀ d, scoreElements missing [⟨none, d⟩] = scoreElements missing [⟨some [], d⟩]) ∧
    (∀ n, scoreElements missing [⟨n, none⟩] = scoreElements missing [⟨n, some []⟩]) :=
  ⟨rfl, rfl, fun _ => ⟨_, _, rfl⟩, fun _ => rfl, fun _ => rfl⟩

/-! Stable descending sort of the aggregator. -/

theorem insSorted_perm (x : Recommendation) (l : List Recommendation) :
    (insSorted x l).Perm (x :: l) := by
  induction l with
  | nil => exact List.Perm.refl _
  | cons h t ih =>
    simp only [insSorted]
    split
    · exact List.Perm.refl _
    · exact (ih.cons h).trans (List.Perm.swap x h t)

theorem sortDesc_perm (l : List Recommendation) : (sortDesc l).Perm l := by
  induction l with
  | nil => exact List.Perm.refl _
  | cons a t ih =>
    exact (insSorted_perm a (sortDesc t)).trans (ih.cons a)

theorem insSorted_sorted (x : Recommendation) (l : List Recommendation)
    (hl : l.Pairwise (fun p q => q.match_score.total_score ≤ p.match_score.total_score)) :
    (insSorted x l).Pairwise
      (fun p q => q.match_score.total_score ≤ p.match_score.total_score) := by
  induction l with
  | nil => simp [insSorted]
  | cons h t ih =>
    obtain ⟨hall, ht⟩ := List.pairwise_cons.mp hl
    simp only [insSorted]
    split
    · rename_i hle
      refine List.Pairwise.cons ?_ hl
      intro y hy
      rcases List.mem_cons.mp hy with rfl | hy
      · exact hle
      · exact le_trans (hall y hy) hle
    · rename_i hgt
      refine List.Pairwise.cons ?_ (ih ht)
      intro y hy
      have hy2 : y ∈ x :: t := (insSorted_perm x t).mem_iff.mp hy
      rcases List.mem_cons.mp hy2 with rfl | hy2
      · exact le_of_lt (not_le.mp hgt)
      · exact hall y hy2

theorem sortDesc_sorted (l : List Recommendation) :
    (sortDesc l).Pairwise
      (fun p q => q.match_score.total_score ≤ p.match_score.total_score) := by
  induction l with
  | nil => simp [sortDesc]
  | cons a t ih =>
    exact insSorted_sorted a (sortDesc t) ih

theorem filter_insSorted_ne (s : ℚ) (x : Recommendation)
    (hx : x.match_score.total_score ≠ s) (l : List Recommendation) :
    (insSorted x l).filter (fun r => decide (r.match_score.total_score = s)) =
      l.filter (fun r => decide (r.match_score.total_score = s)) := by
  induction l with
  | nil => simp [insSorted, hx]
  | cons h t ih =>
    simp only [insSorted]
    split
    · simp [List.filter_cons, hx]
    · simp only [List.filter_cons, ih]

theorem filter_insSorted_eq (s : ℚ) (x : Recommendation)
    (hx : x.match_score.total_score = s) (l : List Recommendation)
    (hl : l.Pairwise (fun p q => q.match_score.total_score ≤ p.match_score.total_score)) :
    (insSorted x l).filter (fun r => decide (r.match_score.total_score = s)) =
      x :: l.filter (fun r => decide (r.match_score.total_score = s)) := by
  induction l with
  | nil => simp [insSorted, hx]
  | cons h t ih =>
    obtain ⟨hall, ht⟩ := List.pairwise_cons.mp hl
    simp only [insSorted]
    split
    · simp [List.filter_cons, hx]
    · rename_i hgt
      have hh : h.match_score.total_score ≠ s := by
        rw [← hx]
        intro hc
        exact hgt (le_of_eq hc)
      simp [List.filter_cons, hh, ih ht]

theorem sortDesc_filter (s : ℚ) (l : List Recommendation) :
    (sortDesc l).filter (fun r => decide (r.match_score.total_score = s)) =
      l.filter (fun r => decide (r.match_score.total_score = s)) := by
  induction l with
  | nil => rfl
  | cons a t ih =>
    show (insSorted a (sortDesc t)).filter _ = _
    by_cases ha : a.match_score.total_score = s
    · rw [filter_insSorted_eq s a ha _ (sortDesc_sorted t), ih]
      simp [List.filter_cons, ha]
    · rw [filter_insSorted_ne s a ha, ih]
      simp [List.filter_cons, ha]

/-! The Recommendation Aggregator. -/

theorem buildCourseRecs_mem (missing : List MissingSkill)
    (fetch : List Char → Option CoursesResponse) :
    ∀ iter r, r ∈ (buildCourseRecs missing fetch iter).1 →
      ∃ t m, calculate_course_match_score (some ⟨some [r.course]⟩) missing =
          .scored t m ∧ 0 < t ∧ r.match_score = ⟨t, m⟩ := by
  intro iter
  induction iter with
  | nil => simp [buildCourseRecs]
  | cons skill rest ih =>
    intro r hr
    rcases hfetch : fetch skill.skill_label with _ | courses
    · simp only [buildCourseRecs, hfetch, List.nil_append] at hr
      exact ih r hr
    · rcases hels : courses.elements with _ | els
      · simp only [buildCourseRecs, hfetch, hels, List.nil_append] at hr
        exact ih r hr
      · simp only [buildCourseRecs, hfetch, hels] at hr
        rw [List.mem_append] at hr
        rcases hr with hr | hr
        · obtain ⟨course, hcourse, heq⟩ := List.mem_filterMap.mp hr
          cases hcalc : calculate_course_match_score (some ⟨some [course]⟩) missing with
          | intZero => rw [hcalc] at heq; simp at heq
          | scored t m =>
            rw [hcalc] at heq
            dsimp only at heq
            by_cases ht : 0 < t
            · rw [if_pos ht] at heq
              obtain rfl := Option.some.inj heq
              exact ⟨t, m, hcalc, ht, rfl⟩
            · rw [if_neg ht] at heq
              simp at heq
        · exact ih r hr

theorem scoreSkillsForElement_all_below (e : CourseElement) :
    ∀ missing : List MissingSkill, (∀ s ∈ missing, combinedScore s e ≤ 3/10) →
      scoreSkillsForElement (lowerLC (e.name.getD []))
        (lowerLC (e.description.getD [])) missing = (0, []) := by
  intro missing
  induction missing with
  | nil => intro _; rfl
  | cons s t ih =>
    intro h
    rw [scoreSkillsForElement_cons_elem, if_neg (not_lt.mpr (h s (by simp))),
      ih (fun s2 hs2 => h s2 (by simp [hs2]))]

/-- C5: an item none of whose (capability, item) combined scores clears the
0.3 threshold is scored zero with an empty trace, and no recommendation for
that item can appear in the aggregator's output (the `total_score > 0`
guard excludes it). -/
theorem claim_C5_absent (e : CourseElement) (missing : List MissingSkill)
    (hne : missing ≠ [])
    (h : ∀ s ∈ missing, combinedScore s e ≤ 3/10) :
    calculate_course_match_score (some ⟨some [e]⟩) missing = .scored 0 [] ∧
    ∀ raw top_k l,
      (get_course_recommendations_cached (.ok missing) raw top_k).1 = .ok l →
      ∀ r ∈ l, r.course ≠ e := by
  have hzero : calculate_course_match_score (some ⟨some [e]⟩) missing = .scored 0 [] := by
    simp only [calculate_course_match_score]
    rw [show scoreElements missing [e] = (0, []) by
      rw [scoreElements_single]
      exact scoreSkillsForElement_all_below e missing h]
  refine ⟨hzero, ?_⟩
  intro raw top_k l hl r hr hre
  rw [get_course_recommendations_cached, if_neg hne] at hl
  obtain rfl := Except.ok.inj hl
  have hr2 : r ∈ sortDesc (buildCourseRecs missing (get_coursera_courses raw) missing).1 :=
    List.mem_of_mem_take hr
  have hr3 : r ∈ (buildCourseRecs missing (get_coursera_courses raw) missing).1 :=
    (sortDesc_perm _).mem_iff.mp hr2
  obtain ⟨t, m, hcalc, hpos, _⟩ := buildCourseRecs_mem missing _ missing r hr3
  rw [hre, hzero] at hcalc
  obtain ⟨ht, -⟩ := MatchResult.scored.inj hcalc
  rw [← ht] at hpos
  exact lt_irrefl 0 hpos

/-- Witness for C5 at a concrete input: no capability clears the threshold
for the item named `'qq'`, so the item is scored zero with an empty trace. -/
theorem claim_C5_absent_witness :
    ([⟨['x','x'], optionalLC, none⟩] : List MissingSkill) ≠ [] ∧
    (∀ s ∈ ([⟨['x','x'], optionalLC, none⟩] : List MissingSkill),
      combinedScore s ⟨some ['q','q'], none⟩ ≤ 3/10) ∧
    calculate_course_match_score (some ⟨some [⟨some ['q','q'], none⟩]⟩)
      [⟨['x','x'], optionalLC, none⟩] = .scored 0 [] := by
  have hcs : combinedScore ⟨['x','x'], optionalLC, none⟩ ⟨some ['q','q'], none⟩ ≤ 3/10 := by
    have h1 : mtot ['x','x'] ['q','q'] = 0 := by decide
    have h2 : mtot ['x','x'] [] = 0 := by decide
    simp only [combinedScore, calculate_skill_match, ratioLC, lowerLC]
    norm_num [show (['x','x'].map Char.toLower) = ['x','x'] from by decide,
      show (['q','q'].map Char.toLower) = ['q','q'] from by decide] at h1 h2 ⊢
    norm_num [h1, h2]
  have hh : ∀ s ∈ ([⟨['x','x'], optionalLC, none⟩] : List MissingSkill),
      combinedScore s ⟨some ['q','q'], none⟩ ≤ 3/10 := by
    intro s hs
    simp only [List.mem_singleton] at hs
    subst hs
    exact hcs
  exact ⟨by simp, hh,
    (claim_C5_absent ⟨some ['q','q'], none⟩ [⟨['x','x'], optionalLC, none⟩] (by simp) hh).1⟩

/-- C1: on any missing-capability list and any content source, the
aggregator returns `ok` with a sequence that is sorted non-increasing by
aggregate score, has length at most `top_k`, contains only items with
strictly positive aggregate score, and preserves, within every equal-score
class, the first-seen fetch order of the flat candidate list. -/
theorem claim_C1_ranking (missing : List MissingSkill)
    (raw : List Char → Except (List Char) CoursesResponse) (top_k : Nat) :
    ∃ l, (get_course_recommendations_cached (.ok missing) raw top_k).1 = .ok l ∧
      l.Pairwise (fun p q => q.match_score.total_score ≤ p.match_score.total_score) ∧
      l.length ≤ top_k ∧
      (∀ r ∈ l, 0 < r.match_score.total_score) ∧
      (∀ s : ℚ, ∃ t2,
        (buildCourseRecs missing (get_coursera_courses raw) missing).1.filter
            (fun r => decide (r.match_score.total_score = s)) =
          l.filter (fun r => decide (r.match_score.total_score = s)) ++ t2) := by
  by_cases hne : missing = []
  · refine ⟨[], ?_, by simp, by simp, by simp, ?_⟩
    · rw [hne]
      rfl
    · intro s
      refine ⟨[], ?_⟩
      rw [hne]
      rfl
  · refine ⟨(sortDesc (buildCourseRecs missing (get_coursera_courses raw) missing).1).take
      top_k, ?_, ?_, ?_, ?_, ?_⟩
    · rw [get_course_recommendations_cached, if_neg hne]
    · exact List.Pairwise.sublist (List.take_sublist _ _) (sortDesc_sorted _)
    · exact List.length_take_le _ _
    · intro r hr
      have hr3 : r ∈ (buildCourseRecs missing (get_coursera_courses raw) missing).1 :=
        (sortDesc_perm _).mem_iff.mp (List.mem_of_mem_take hr)
      obtain ⟨t, m, _, hpos, hms⟩ := buildCourseRecs_mem missing _ missing r hr3
      rw [hms]
      exact hpos
    · intro s
      refine ⟨((sortDesc (buildCourseRecs missing (get_coursera_courses raw) missing).1).drop
        top_k).filter (fun r => decide (r.match_score.total_score = s)), ?_⟩
      rw [← sortDesc_filter s]
      conv_lhs =>
        rw [← List.take_append_drop top_k
          (sortDesc (buildCourseRecs missing (get_coursera_courses raw) missing).1)]
      rw [List.filter_append]

/-- C4: an empty missing-capability sequence makes the aggregator return an
empty result immediately, and no content-source query is ever issued (the
recorded query trace is empty). -/
theorem claim_C4_empty_gap (raw : List Char → Except (List Char) CoursesResponse)
    (top_k : Nat) :
    get_course_recommendations_cached (.ok []) raw top_k = (.ok [], []) := rfl

theorem buildCourseRecs_skip (missing : List MissingSkill)
    (fetch : List Char → Option CoursesResponse) :
    ∀ iter, (buildCourseRecs missing fetch iter).1 =
      (buildCourseRecs missing fetch (iter.filter (respOk fetch))).1 := by
  intro iter
  induction iter with
  | nil => rfl
  | cons skill rest ih =>
    by_cases hok : respOk fetch skill = true
    · rw [List.filter_cons_of_pos hok]
      simp only [buildCourseRecs]
      rw [ih]
    · rw [List.filter_cons_of_neg (by simpa using hok)]
      simp only [buildCourseRecs]
      rcases hf : fetch skill.skill_label with _ | courses
      · simp only [hf, List.nil_append]
        exact ih
      · rcases he : courses.elements with _ | els
        · simp only [hf, he, List.nil_append]
          exact ih
        · exfalso
          apply hok
          rw [respOk, hf]
          dsimp only
          rw [he]
          rfl

/-- C6: a taxonomy-collaborator failure propagates unchanged (with no
content-source query issued); when the taxonomy succeeds the aggregator
always returns `ok`, whatever the content source does; a raising raw
request is turned into `None` by `get_coursera_courses`; and a capability
whose fetch fails or carries no `'elements'` contributes nothing — the
collected candidate list equals the one computed from the usable
capabilities only. -/
theorem claim_C6_error_handling :
    (∀ (e : List Char) (raw : List Char → Except (List Char) CoursesResponse)
        (top_k : Nat),
      get_course_recommendations_cached (.error e) raw top_k = (.error e, [])) ∧
    (∀ (missing : List MissingSkill)
        (raw : List Char → Except (List Char) CoursesResponse) (top_k : Nat),
      ∃ l, (get_course_recommendations_cached (.ok missing) raw top_k).1 = .ok l) ∧
    (∀ (e2 s : List Char), get_coursera_courses (fun _ => .error e2) s = none) ∧
    (∀ (missing : List MissingSkill) (fetch : List Char → Option CoursesResponse)
        (iter : List MissingSkill),
      (buildCourseRecs missing fetch iter).1 =
        (buildCourseRecs missing fetch (iter.filter (respOk fetch))).1) := by
  refine ⟨fun e raw top_k => rfl, ?_, fun e2 s => rfl,
    fun missing fetch iter => buildCourseRecs_skip missing fetch iter⟩
  intro missing raw top_k
  by_cases hne : missing = []
  · subst hne
    exact ⟨[], rfl⟩
  · exact ⟨_, by rw [get_course_recommendations_cached, if_neg hne]⟩

/-- C8 counterexample: called with `None` as first argument the Similarity
Scorer raises `AttributeError` (there is no `.lower` on `None`) instead of
treating the argument as the empty string. -/
theorem claim_C8_counterexample :
    calculate_skill_match_dyn .pnone (.pstr ['p','y']) = .error attributeErrorLC ∧
    calculate_skill_match_dyn .pnone (.pstr ['p','y']) ≠
      .ok (calculate_skill_match [] ['p','y']) :=
  ⟨rfl, fun h => Except.noConfusion h⟩

/-- C8 amended: on string inputs the Similarity Scorer is total (no failure
modes, no side effects); a `None` or non-string argument raises
`AttributeError` rather than being read as the empty string. -/
theorem claim_C8_amended :
    (∀ s1 s2 : List Char,
      calculate_skill_match_dyn (.pstr s1) (.pstr s2) =
        .ok (calculate_skill_match s1 s2)) ∧
    (∀ v, calculate_skill_match_dyn .pnone v = .error attributeErrorLC) ∧
    (∀ (n : Int) v, calculate_skill_match_dyn (.pint n) v = .error attributeErrorLC) :=
  ⟨fun _ _ => rfl, fun _ => rfl, fun _ _ => rfl⟩
